import Mathlib

/-!
Verification development for MiniGit, a local version-control engine
(content-addressed object store, commit DAG, branches, three-way merge).

The definitions below are a shallow embedding of the C++ sources:
  - `src/mingit_project/mingit_project/src/minigit.cpp`  (repository operations)
  - `src/mingit_project/mingit_project/src/commit.cpp`   (Commit encode/decode)
  - `src/unnamed/part_001`                               (blob.cpp: Blob encode/decode)
  - `src/unnamed/part_000`                               (branch.cpp: Branch encode/decode)
  - the `utils.cpp` embedded in `src/README.md` after the document separator
    (`utils::split`, `utils::string_to_timestamp`, `utils::sha1_hash`, ...)
together with the headers `include/blob.h`, `include/commit.h`, `branch.h`.

Strings are modelled by `String` / `List Char`; `std::map` by association
lists with keyed insert (all observations made by the theorems are lookups,
which do not depend on iteration order); the file-backed object/ref spaces by
in-memory maps (the spec treats raw file I/O as an external storage
collaborator, out of scope).  `utils::sha1_hash` hex-encodes a digest
computed by OpenSSL's `SHA1`; the external digest is an abstract parameter,
and repository operations take the whole content-to-hash-string function as
an abstract parameter `H`.  Possibly non-terminating loops take explicit
fuel and return `none` when the fuel runs out; C++ exceptions escaping a
function are modelled by a distinct error result.
-/

namespace MiniGit

/-- Association-list lookup, modelling `std::map::find`. -/
def alookup {α : Type} : List (String × α) → String → Option α
  | [], _ => none
  | (k, v) :: rest, key => if key = k then some v else alookup rest key

/-- Association-list keyed insert-or-replace, modelling assignment through
`std::map::operator[]`. -/
def ainsert {α : Type} (key : String) (val : α) : List (String × α) → List (String × α)
  | [] => [(key, val)]
  | (k, v) :: rest => if key = k then (key, val) :: rest else (k, v) :: ainsert key val rest

/-- Raw split of a character list at every newline: `n` newlines yield
`n + 1` (possibly empty) segments. -/
def splitRaw : List Char → List (List Char)
  | [] => [[]]
  | c :: cs =>
    match splitRaw cs with
    | [] => [[]]
    | t :: ts => if c = '\n' then [] :: t :: ts else (c :: t) :: ts

/-- Drop a final empty segment, as `std::getline` never reports one. -/
def trimLast (r : List (List Char)) : List (List Char) :=
  match r.getLast? with
  | some [] => r.dropLast
  | _ => r

/-- `utils::split` (utils.cpp, embedded in `src/README.md`): a
`while (std::getline(ss, token, delimiter))` loop over a stringstream.
`getline` yields the characters before each delimiter (consuming it) and the
run before EOF, and fails — ending the loop — when no character remains; so
the text is cut at every delimiter and a final empty segment (from a
trailing delimiter, or from empty input) is not reported as a token.
Specialised here to the newline delimiter, its only use in the decoders. -/
def splitNl (l : List Char) : List (List Char) :=
  trimLast (splitRaw l)

/-- Decimal value of a list of digit characters. -/
def digitsVal (l : List Char) : Nat := l.foldl (fun n c => n * 10 + (c.toNat - 48)) 0

/-- Model of `std::stoul` on the unsigned inputs the decoders feed it: skip
leading spaces, read a maximal run of decimal digits; if there is no digit,
`std::stoul` throws `std::invalid_argument`, modelled as `none`.  (A leading
sign, which `std::stoul` would accept and wrap modulo `2^64`, is outside the
modelled domain and exercised by no theorem below.) -/
def stoulCh (l : List Char) : Option Nat :=
  let t := l.dropWhile (fun c => c = ' ')
  let ds := t.takeWhile Char.isDigit
  if ds = [] then none else some (digitsVal ds)

/-- Model of `std::stoll`: skip leading spaces, accept an optional sign,
read a maximal run of decimal digits; with no digit `std::stoll` throws
`std::invalid_argument`, modelled as `none`. -/
def stollCh (l : List Char) : Option Int :=
  let t := l.dropWhile (fun c => c = ' ')
  match t with
  | '-' :: rest =>
    let ds := rest.takeWhile Char.isDigit
    if ds = [] then none else some (-(digitsVal ds : Int))
  | '+' :: rest =>
    let ds := rest.takeWhile Char.isDigit
    if ds = [] then none else some (digitsVal ds)
  | _ =>
    let ds := t.takeWhile Char.isDigit
    if ds = [] then none else some (digitsVal ds)

/-- `utils::string_to_timestamp` (utils.cpp, embedded in `src/README.md`):
a cast of `std::stoll(str)`, so a non-numeric timestamp field raises an
exception (`none`) that escapes the caller. -/
def string_to_timestamp (l : List Char) : Option Int := stollCh l

/-- The decimal digit character for `d % 10`-style arguments (`d < 10` at
every use site). -/
def digitChar : Nat → Char
  | 0 => '0' | 1 => '1' | 2 => '2' | 3 => '3' | 4 => '4'
  | 5 => '5' | 6 => '6' | 7 => '7' | 8 => '8' | _ => '9'

/-- Decimal rendering, with structural fuel (any fuel above the number of
digits gives the same answer; `natDigits` supplies enough). -/
def natDigitsAux : Nat → Nat → List Char
  | 0, _ => []
  | fuel + 1, n =>
    if n < 10 then [digitChar n]
    else natDigitsAux fuel (n / 10) ++ [digitChar (n % 10)]

/-- Decimal rendering of a natural number, as `operator<<` on an unsigned
integer produces it. -/
def natDigits (n : Nat) : List Char := natDigitsAux (n + 1) n

/-- The lowercase hexadecimal digit for values below 16 (every use site). -/
def hexDigitChar : Nat → Char
  | 0 => '0' | 1 => '1' | 2 => '2' | 3 => '3' | 4 => '4'
  | 5 => '5' | 6 => '6' | 7 => '7' | 8 => '8' | 9 => '9'
  | 10 => 'a' | 11 => 'b' | 12 => 'c' | 13 => 'd' | 14 => 'e' | _ => 'f'

/-- `utils::hex_encode` (utils.cpp, embedded in `src/README.md`): each
digest byte (an `unsigned char`, value below 256) is printed as exactly two
zero-padded lowercase hex digits. -/
def hex_encode (bytes : List Nat) : List Char :=
  bytes.flatMap (fun b => [hexDigitChar (b / 16), hexDigitChar (b % 16)])

/-- `utils::sha1_hash` (utils.cpp, embedded in `src/README.md`):
`hex_encode` of the 20-byte digest computed by OpenSSL's `SHA1` routines.
The digest computation is external library code, abstracted as `D`. -/
def sha1_hash (D : String → List Nat) (input : String) : String :=
  String.mk (hex_encode (D input))

/-- Drop characters up to and including the `n`-th newline, modelling
`data.substr(pos + 1)` where `pos` is the position of the `n`-th newline
(and yielding the empty remainder when the newline ends the data, exactly as
the `content_start < data.length()` guard in `Blob::from_string` does). -/
def dropPastNewlines : Nat → List Char → List Char
  | 0, l => l
  | _ + 1, [] => []
  | n + 1, c :: cs => if c = '\n' then dropPastNewlines n cs else dropPastNewlines (n + 1) cs

/-- Result of a decoder: a parsed object, a `nullptr` rejection (the spec's
`CorruptObject` signal), or a C++ exception escaping the decoder. -/
inductive DecRes (α : Type) where
  | ok (val : α)
  | reject
  | err
deriving DecidableEq

/-- Blob: content snapshot of one file (include/blob.h). -/
structure Blob where
  hash : String
  content : String
  filename : String
deriving DecidableEq, Repr

/-- The `Blob` constructor (part_001): stores content and filename and sets
`hash = utils::sha1_hash(content)`; the SHA-1 routine is the abstract
parameter `H`. -/
def Blob.make (H : String → String) (content filename : String) : Blob :=
  { hash := H content, content := content, filename := filename }

/-- `Blob::to_string` (part_001): `blob <hash>` / `filename <name>` /
`content <byte-length>` / raw content bytes. -/
def Blob.to_cs (b : Blob) : List Char :=
  "blob ".data ++ b.hash.data ++ '\n' ::
  ("filename ".data ++ b.filename.data ++ '\n' ::
  ("content ".data ++ natDigits b.content.length ++ '\n' :: b.content.data))

/-- The body of `Blob::from_string` after the line split: require at least
four lines, check the three header tags, parse the (unused) declared length
with `std::stoul`, then take everything after the third newline of the raw
record as content. -/
def Blob.from_lines (data : List Char) : List (List Char) → DecRes Blob
  | l0 :: l1 :: l2 :: _ :: _ =>
    if ("blob ".data).isPrefixOf l0 = false then .reject else
    if ("filename ".data).isPrefixOf l1 = false then .reject else
    if ("content ".data).isPrefixOf l2 = false then .reject else
    match stoulCh (l2.drop 8) with
    | none => .err
    | some _ =>
      .ok { hash := String.mk (l0.drop 5)
            content := String.mk (dropPastNewlines 3 data)
            filename := String.mk (l1.drop 9) }
  | _ => .reject

/-- `Blob::from_string` (part_001). -/
def Blob.from_cs (data : List Char) : DecRes Blob :=
  Blob.from_lines data (splitNl data)

/-- Commit: a snapshot node of the history DAG (include/commit.h). -/
structure Commit where
  hash : String
  message : String
  author : String
  timestamp : Int
  parent_hashes : List String
  file_blobs : List (String × String)
deriving DecidableEq, Repr

/-- The `Commit` constructor (commit.cpp lines 4-7): sets message, author and
`timestamp = std::time(nullptr)` (modelled by the `now` argument).  The
`hash` member is never assigned by the constructor, so it keeps the
default-constructed empty string. -/
def Commit.make (message author : String) (now : Int) : Commit :=
  { hash := "", message := message, author := author, timestamp := now
    parent_hashes := [], file_blobs := [] }

/-- `Commit::add_parent`: appends unless the hash is already a parent. -/
def Commit.add_parent (c : Commit) (p : String) : Commit :=
  if p ∈ c.parent_hashes then c else { c with parent_hashes := c.parent_hashes ++ [p] }

/-- `Commit::add_file`: keyed insert into the filename-to-blob-hash map. -/
def Commit.add_file (c : Commit) (filename blob_hash : String) : Commit :=
  { c with file_blobs := ainsert filename blob_hash c.file_blobs }

/-- `Commit::to_string` (commit.cpp lines 23-41). -/
def Commit.to_cs (c : Commit) : List Char :=
  "commit ".data ++ c.hash.data ++ '\n' ::
  ("message ".data ++ c.message.data ++ '\n' ::
  ("author ".data ++ c.author.data ++ '\n' ::
  ("timestamp ".data ++ c.timestamp.repr.data ++ '\n' ::
  ("parents ".data ++ natDigits c.parent_hashes.length ++ '\n' ::
  ((c.parent_hashes.flatMap (fun p => "parent ".data ++ p.data ++ ['\n'])) ++
  ("files ".data ++ natDigits c.file_blobs.length ++ '\n' ::
  (c.file_blobs.flatMap (fun fb => "file ".data ++ fb.1.data ++ ' ' :: fb.2.data ++ ['\n']))))))))

/-- The parent-parsing loop of `Commit::from_string` (lines 91-98): consume
one line per iteration, at most `count` iterations, adding a parent whenever
the consumed line carries the `parent ` tag; return the remaining lines. -/
def parseParents : Nat → List (List Char) → Commit → Commit × List (List Char)
  | 0, ls, c => (c, ls)
  | _ + 1, [], c => (c, [])
  | k + 1, l :: ls, c =>
    parseParents k ls
      (if ("parent ".data).isPrefixOf l then c.add_parent (String.mk (l.drop 7)) else c)

/-- Split at the first space, as `file_info.find(' ')` / `substr` do;
`none` when there is no space. -/
def splitFirstSpace (l : List Char) : Option (List Char × List Char) :=
  match l.dropWhile (fun c => ¬ c = ' ') with
  | [] => none
  | _ :: rest => some (l.takeWhile (fun c => ¬ c = ' '), rest)

/-- The file-parsing loop of `Commit::from_string` (lines 105-116). -/
def parseFiles : Nat → List (List Char) → Commit → Commit
  | 0, _, c => c
  | _ + 1, [], c => c
  | k + 1, l :: ls, c =>
    parseFiles k ls
      (if ("file ".data).isPrefixOf l then
        match splitFirstSpace (l.drop 5) with
        | some (fn, bh) => c.add_file (String.mk fn) (String.mk bh)
        | none => c
      else c)

/-- The body of `Commit::from_string` after the line split.  The header tag
checks and number parses happen in the source's order: the timestamp value
is parsed (commit.cpp line 78, `utils::string_to_timestamp`, an `std::stoll`
that throws on a non-numeric field) before the `parents ` tag is examined. -/
def Commit.from_lines : List (List Char) → DecRes Commit
  | l0 :: l1 :: l2 :: l3 :: l4 :: rest =>
    if ("commit ".data).isPrefixOf l0 = false then .reject else
    if ("message ".data).isPrefixOf l1 = false then .reject else
    if ("author ".data).isPrefixOf l2 = false then .reject else
    if ("timestamp ".data).isPrefixOf l3 = false then .reject else
    match string_to_timestamp (l3.drop 10) with
    | none => .err
    | some ts =>
      if ("parents ".data).isPrefixOf l4 = false then .reject else
      match stoulCh (l4.drop 8) with
      | none => .err
      | some pcount =>
        let c0 : Commit :=
          { hash := String.mk (l0.drop 7), message := String.mk (l1.drop 8)
            author := String.mk (l2.drop 7), timestamp := ts
            parent_hashes := [], file_blobs := [] }
        match parseParents pcount rest c0 with
        | (c1, lf :: restf) =>
          if ("files ".data).isPrefixOf lf then
            match stoulCh (lf.drop 6) with
            | none => .err
            | some fcount => .ok (parseFiles fcount restf c1)
          else .ok c1
        | (c1, []) => .ok c1
  | _ => .reject

/-- `Commit::from_string` (commit.cpp lines 43-120). -/
def Commit.from_cs (data : List Char) : DecRes Commit :=
  Commit.from_lines (splitNl data)

/-- Branch: named mutable pointer to a commit (branch.h). -/
structure Branch where
  name : String
  commit_hash : String
deriving DecidableEq, Repr

/-- `Branch::to_string` (part_000). -/
def Branch.to_cs (b : Branch) : List Char :=
  "branch ".data ++ b.name.data ++ '\n' :: ("commit ".data ++ b.commit_hash.data ++ ['\n'])

/-- The body of `Branch::from_string` after the line split: at least two
lines, both tags checked. -/
def Branch.from_lines : List (List Char) → Option Branch
  | l0 :: l1 :: _ =>
    if ("branch ".data).isPrefixOf l0 = false then none else
    if ("commit ".data).isPrefixOf l1 = false then none else
    some { name := String.mk (l0.drop 7), commit_hash := String.mk (l1.drop 7) }
  | _ => none

/-- `Branch::from_string` (part_000). -/
def Branch.from_cs (data : List Char) : Option Branch :=
  Branch.from_lines (splitNl data)

/-- A record of the shared object space `.minigit/objects/` (the two on-disk
record kinds, distinguished by their leading tag). -/
inductive Obj where
  | blob (b : Blob)
  | commit (c : Commit)
deriving DecidableEq, Repr

/-- Repository state: the object space, the persisted `HEAD` file, the
branch reference space, the in-memory current branch name and staging area,
and the initialization flag (fields of the `MiniGit` class). -/
structure RepoState where
  is_init : Bool
  objects : List (String × Obj)
  head : String
  branches : List (String × Branch)
  current_branch : String
  staging : List (String × Blob)
deriving DecidableEq, Repr

/-- `MiniGit::load_commit` reading from a given object space: reading the key
yields the record's bytes and `Commit::from_string` of a blob record fails its
tag check, so only a commit object loads; the empty hash names the bare
objects directory, whose read yields no data, hence `nullptr`. -/
def loadCommitFrom (objects : List (String × Obj)) (hash : String) : Option Commit :=
  if hash = "" then none else
  match alookup objects hash with
  | some (Obj.commit c) => some c
  | _ => none

/-- `MiniGit::load_blob` reading from a given object space (symmetric to
`loadCommitFrom`). -/
def loadBlobFrom (objects : List (String × Obj)) (hash : String) : Option Blob :=
  if hash = "" then none else
  match alookup objects hash with
  | some (Obj.blob b) => some b
  | _ => none

/-- `MiniGit::load_commit` on the repository state. -/
def loadCommit (st : RepoState) (hash : String) : Option Commit :=
  loadCommitFrom st.objects hash

/-- `MiniGit::get_commit_ancestors` (minigit.cpp lines 267-287): follow the
first parent from `current` until the hash is empty, the commit fails to
load, or the commit has no parents.  The C++ `while` loop carries no step
bound; the `fuel` argument is the embedding of that unbounded loop, `none`
meaning the loop has not finished within `fuel` iterations. -/
def get_commit_ancestors (st : RepoState) : String → Nat → Option (List String)
  | _, 0 => none
  | current, fuel + 1 =>
    if current = "" then some [] else
    match loadCommit st current with
    | none => some []
    | some c =>
      match c.parent_hashes with
      | [] => some [current]
      | p :: _ => (get_commit_ancestors st p fuel).map (fun l => current :: l)

/-- Membership of a hash in the `std::set` built from the first ancestor
list (minigit.cpp line 293-296). -/
def memb (h : String) (l : List String) : Bool := decide (h ∈ l)

/-- `MiniGit::find_lowest_common_ancestor` (minigit.cpp lines 289-302): put
`ancestors(commit1)` in a set, scan `ancestors(commit2)` in order and return
the first member of the set, or the empty string when there is none.  `none`
propagates an unfinished ancestor traversal. -/
def find_lowest_common_ancestor (st : RepoState) (h1 h2 : String) (fuel : Nat) :
    Option String :=
  match get_commit_ancestors st h1 fuel, get_commit_ancestors st h2 fuel with
  | some a1, some a2 =>
    some (match a2.find? (fun h => memb h a1) with
          | some x => x
          | none => "")
  | _, _ => none

/-- `MiniGit::get_file_changes` (minigit.cpp lines 304-326): the files of
`to` whose blob hash is absent from, or different in, `from`. -/
def get_file_changes (st : RepoState) (from_hash to_hash : String) :
    List (String × String) :=
  match loadCommit st from_hash, loadCommit st to_hash with
  | some fc, some tc =>
    tc.file_blobs.foldl
      (fun changes ft =>
        match alookup fc.file_blobs ft.1 with
        | none => ainsert ft.1 ft.2 changes
        | some h => if h = ft.2 then changes else ainsert ft.1 ft.2 changes)
      []
  | _, _ => []

/-- `MiniGit::merge_files` (minigit.cpp lines 328-350): the per-file
three-way merge rule. -/
def merge_files (base_content ours_content theirs_content : String) : String :=
  if ours_content = theirs_content then ours_content
  else if base_content = ours_content then theirs_content
  else if base_content = theirs_content then ours_content
  else
    base_content ++ "\n<<<<<<< HEAD\n" ++ ours_content ++ "\n=======\n" ++
      theirs_content ++ "\n>>>>>>> MERGE\n"

/-- What `MiniGit::merge` reported on a run that returned. -/
inductive MergeReport where
  | not_repo
  | no_branch
  | up_to_date
  | no_lca
  | merged (has_conflicts : Bool)
deriving DecidableEq, Repr

/-- Outcome of `MiniGit::merge`: the boolean return value, the report, the
repository state after the run, and the merge commit constructed by the run
(recorded for specification purposes; `none` on the early-return paths). -/
structure MergeOutcome where
  ok : Bool
  report : MergeReport
  state : RepoState
  new_commit : Option Commit
deriving DecidableEq, Repr

/-- The loop over `target_changes` (minigit.cpp lines 386-417): target-only
changes and convergent changes take the target blob; a diverging change is a
conflict, whose merged blob is produced by `merge_files`, stored, and
recorded.  `base_commit.get_files().at(filename)` throws `std::out_of_range`
when the base lacks the file, and a null `load_commit(lca)` is dereferenced —
both crash the run, modelled by `none`; when one of the three blobs fails to
load, the file is silently skipped (the conflict flag stays set). -/
def mergeTargetLoop (H : String → String) (lca : String)
    (current_changes : List (String × String)) :
    List (String × String) → List (String × String) → Bool → List (String × Obj) →
      Option (List (String × String) × Bool × List (String × Obj))
  | [], merged, conflicts, objs => some (merged, conflicts, objs)
  | (filename, blob_hash) :: rest, merged, conflicts, objs =>
    match alookup current_changes filename with
    | none =>
      mergeTargetLoop H lca current_changes rest (ainsert filename blob_hash merged)
        conflicts objs
    | some cur_hash =>
      if cur_hash = blob_hash then
        mergeTargetLoop H lca current_changes rest (ainsert filename blob_hash merged)
          conflicts objs
      else
        match loadCommitFrom objs lca with
        | none => none
        | some base_commit =>
          match alookup base_commit.file_blobs filename with
          | none => none
          | some base_hash =>
            match loadBlobFrom objs base_hash, loadBlobFrom objs cur_hash,
                loadBlobFrom objs blob_hash with
            | some bb, some ob, some tb =>
              let mblob := Blob.make H (merge_files bb.content ob.content tb.content) filename
              mergeTargetLoop H lca current_changes rest
                (ainsert filename mblob.hash merged) true
                (ainsert mblob.hash (Obj.blob mblob) objs)
            | _, _, _ => mergeTargetLoop H lca current_changes rest merged true objs

/-- The loop over `current_changes` (minigit.cpp lines 420-424): add the
current side's blob for every file not present in `target_changes`. -/
def mergeCurrentAdd (target_changes : List (String × String)) :
    List (String × String) → List (String × String) → List (String × String)
  | [], merged => merged
  | (filename, blob_hash) :: rest, merged =>
    match alookup target_changes filename with
    | some _ => mergeCurrentAdd target_changes rest merged
    | none => mergeCurrentAdd target_changes rest (ainsert filename blob_hash merged)

/-- `MiniGit::merge` (minigit.cpp lines 352-454).  `H` is the abstract SHA-1,
`fuel` bounds the ancestor traversals, `now` is the merge commit's creation
time.  The C++ merge message wraps the branch name in single quotes; the
quotes are dropped here, and no theorem below inspects the message. -/
def merge (H : String → String) (st : RepoState) (branch_name : String)
    (fuel : Nat) (now : Int) : Option MergeOutcome :=
  if st.is_init = false then some ⟨false, .not_repo, st, none⟩ else
  match alookup st.branches branch_name with
  | none => some ⟨false, .no_branch, st, none⟩
  | some br =>
    let current_commit := st.head
    let target_commit := br.commit_hash
    if current_commit = target_commit then some ⟨true, .up_to_date, st, none⟩ else
    match find_lowest_common_ancestor st current_commit target_commit fuel with
    | none => none
    | some lca =>
      if lca = "" then some ⟨false, .no_lca, st, none⟩ else
      let current_changes := get_file_changes st lca current_commit
      let target_changes := get_file_changes st lca target_commit
      match mergeTargetLoop H lca current_changes target_changes [] false st.objects with
      | none => none
      | some (m4, has_conflicts, objs1) =>
        let merged_files := mergeCurrentAdd target_changes current_changes m4
        let mc :=
          merged_files.foldl (fun c fb => c.add_file fb.1 fb.2)
            (((Commit.make ("Merge branch " ++ branch_name ++ " into " ++ st.current_branch)
                "user" now).add_parent current_commit).add_parent target_commit)
        let st1 : RepoState :=
          { st with objects := ainsert mc.hash (Obj.commit mc) objs1, head := mc.hash }
        let st2 :=
          match alookup st1.branches st1.current_branch with
          | some cbr =>
            { st1 with branches :=
                ainsert st1.current_branch { cbr with commit_hash := mc.hash } st1.branches }
          | none => st1
        some ⟨true, .merged has_conflicts, st2, some mc⟩

/-- Outcome of `MiniGit::commit`: return value, state after the run, and the
commit constructed by the run (recorded for specification purposes). -/
structure CommitOutcome where
  ok : Bool
  state : RepoState
  new_commit : Option Commit
deriving DecidableEq, Repr

/-- `MiniGit::commit` (minigit.cpp lines 132-174): require an initialized
repository and a non-empty staging area; build a commit via the constructor,
add the HEAD commit as parent when HEAD is non-empty, save each staged blob
and record it in the commit's file table, save the commit, advance HEAD and
the current branch to the commit's hash, clear the staging area. -/
def commit_op (st : RepoState) (message : String) (now : Int) : CommitOutcome :=
  if st.is_init = false then ⟨false, st, none⟩ else
  if st.staging = [] then ⟨false, st, none⟩ else
  let c0 := Commit.make message "user" now
  let c1 := if st.head = "" then c0 else c0.add_parent st.head
  let step :=
    st.staging.foldl
      (fun (acc : List (String × Obj) × Commit) fb =>
        (ainsert fb.2.hash (Obj.blob fb.2) acc.1, acc.2.add_file fb.1 fb.2.hash))
      (st.objects, c1)
  let c2 := step.2
  let st1 : RepoState :=
    { st with objects := ainsert c2.hash (Obj.commit c2) step.1, head := c2.hash }
  let st2 :=
    match alookup st1.branches st1.current_branch with
    | some br =>
      { st1 with branches :=
          ainsert st1.current_branch { br with commit_hash := c2.hash } st1.branches }
    | none => st1
  ⟨true, { st2 with staging := [] }, some c2⟩

/-- `MiniGit::checkout` (minigit.cpp lines 238-265): an existing branch name
switches the current branch and rewrites `HEAD` only when the branch's commit
hash is non-empty; otherwise a loadable commit hash rewrites `HEAD`;
otherwise the operation fails. -/
def checkout (st : RepoState) (target : String) : Bool × RepoState :=
  if st.is_init = false then (false, st) else
  match alookup st.branches target with
  | some br =>
    let st1 := { st with current_branch := target }
    if br.commit_hash = "" then (true, st1)
    else (true, { st1 with head := br.commit_hash })
  | none =>
    match loadCommit st target with
    | some _ => (true, { st with head := target })
    | none => (false, st)

/-! Concrete repository fixtures used by evaluation theorems and witnesses. -/

/-- A base commit holding files `a` and `b`. -/
def cBase : Commit :=
  { hash := "B", message := "base", author := "user", timestamp := 0
    parent_hashes := [], file_blobs := [("a", "h1"), ("b", "h2")] }

/-- A child of `cBase` that changed only file `b`. -/
def cFeat : Commit :=
  { hash := "T", message := "feat", author := "user", timestamp := 1
    parent_hashes := ["B"], file_blobs := [("a", "h1"), ("b", "h3")] }

/-- Repository whose `main` sits at the base commit and whose `feat`
branch changed file `b` only. -/
def mergeDemoState : RepoState :=
  { is_init := true
    objects := [("B", Obj.commit cBase), ("T", Obj.commit cFeat)]
    head := "B"
    branches := [("main", { name := "main", commit_hash := "B" }),
                 ("feat", { name := "feat", commit_hash := "T" })]
    current_branch := "main"
    staging := [] }

/-- C7.  `merge_files` returns `ours` when `ours = theirs`, `theirs` when
`base = ours`, `ours` when `base = theirs`, and otherwise `base` followed by
the conflict block `\n<<<<<<< HEAD\n` ++ ours ++ `\n=======\n` ++ theirs ++
`\n>>>>>>> MERGE\n`, which contains both `ours` and `theirs`. -/
theorem c7_merge_content : ∀ b o t : String,
    (o = t → merge_files b o t = o) ∧
    (b = o → merge_files b o t = t) ∧
    (b = t → merge_files b o t = o) ∧
    (o ≠ t → b ≠ o → b ≠ t →
      merge_files b o t =
          b ++ "\n<<<<<<< HEAD\n" ++ o ++ "\n=======\n" ++ t ++ "\n>>>>>>> MERGE\n" ∧
        (∃ x y, merge_files b o t = x ++ o ++ y) ∧
        (∃ x y, merge_files b o t = x ++ t ++ y)) := by
  intro b o t
  refine ⟨?_, ?_, ?_, ?_⟩
  · intro h; rw [merge_files, if_pos h]
  · intro h
    by_cases h2 : o = t
    · rw [merge_files, if_pos h2]; exact h2
    · rw [merge_files, if_neg h2, if_pos h]
  · intro h
    by_cases h2 : o = t
    · rw [merge_files, if_pos h2]
    · rw [merge_files, if_neg h2, if_neg (fun hh => h2 (hh.symm.trans h)), if_pos h]
  · intro h1 h2 h3
    have he : merge_files b o t =
        b ++ "\n<<<<<<< HEAD\n" ++ o ++ "\n=======\n" ++ t ++ "\n>>>>>>> MERGE\n" := by
      rw [merge_files, if_neg h1, if_neg h2, if_neg h3]
    refine ⟨he, ⟨b ++ "\n<<<<<<< HEAD\n", "\n=======\n" ++ t ++ "\n>>>>>>> MERGE\n", ?_⟩,
      ⟨b ++ "\n<<<<<<< HEAD\n" ++ o ++ "\n=======\n", "\n>>>>>>> MERGE\n", ?_⟩⟩
    · rw [he]; simp only [String.append_assoc]
    · rw [he]

/-- Witness for C7 at concrete contents. -/
theorem c7_merge_content_witness :
    merge_files "base" "ours" "ours" = "ours" ∧
    merge_files "base" "base" "theirs" = "theirs" ∧
    merge_files "base" "ours" "base" = "ours" ∧
    merge_files "base" "ours" "theirs" =
      "base" ++ "\n<<<<<<< HEAD\n" ++ "ours" ++ "\n=======\n" ++ "theirs" ++
        "\n>>>>>>> MERGE\n" := by
  refine ⟨(c7_merge_content "base" "ours" "ours").1 rfl,
    (c7_merge_content "base" "base" "theirs").2.1 rfl,
    (c7_merge_content "base" "ours" "base").2.2.1 rfl,
    ((c7_merge_content "base" "ours" "theirs").2.2.2 (by decide) (by decide) (by decide)).1⟩

/-- C8.  When `merge` is invoked on an initialized repository, with an
existing target branch whose commit equals the current HEAD commit, it
succeeds, reports "already up to date", constructs no commit, and returns
the repository state entirely unchanged (object space, HEAD, branches,
current branch, staging area). -/
theorem c8_merge_up_to_date :
    ∀ (H : String → String) (st : RepoState) (bname : String) (br : Branch)
      (fuel : Nat) (now : Int),
      st.is_init = true →
      alookup st.branches bname = some br →
      st.head = br.commit_hash →
      merge H st bname fuel now =
        some { ok := true, report := .up_to_date, state := st, new_commit := none } := by
  intro H st bname br fuel now h1 h2 h3
  rw [merge, h1, h2]
  simp [h3]

/-- Witness for C8: merging `main` into itself at the demo repository. -/
theorem c8_merge_up_to_date_witness :
    merge (fun _ => "HX") mergeDemoState "main" 5 2 =
      some { ok := true, report := .up_to_date, state := mergeDemoState,
             new_commit := none } :=
  c8_merge_up_to_date (fun _ => "HX") mergeDemoState "main"
    { name := "main", commit_hash := "B" } 5 2 rfl (by decide) rfl

/-- C10.  `checkout` of an existing branch whose commit hash is empty
succeeds and sets the current branch to that name, leaving every other part
of the state — in particular the persisted HEAD commit hash — unchanged. -/
theorem c10_checkout_empty_branch :
    ∀ (st : RepoState) (target : String) (br : Branch),
      st.is_init = true →
      alookup st.branches target = some br →
      br.commit_hash = "" →
      checkout st target = (true, { st with current_branch := target }) := by
  intro st target br h1 h2 h3
  rw [checkout, h1, h2]
  simp [h3]

/-- Witness for C10: a fresh repository with an un-born branch. -/
theorem c10_checkout_empty_branch_witness :
    checkout
      { is_init := true, objects := [], head := "",
        branches := [("dev", { name := "dev", commit_hash := "" })],
        current_branch := "main", staging := [] } "dev" =
    (true,
      { is_init := true, objects := [], head := "",
        branches := [("dev", { name := "dev", commit_hash := "" })],
        current_branch := "dev", staging := [] }) :=
  c10_checkout_empty_branch _ "dev" { name := "dev", commit_hash := "" }
    rfl (by decide) rfl

/-- C1.  Evaluation showing the claim fails on the code: in
`mergeDemoState` the current commit `B` holds file `a` (hash `h1`) and file
`a` is changed by neither side, yet the merge commit constructed by
`MiniGit::merge` maps only the changed file `b` and drops `a` entirely —
its file table is the set of merge decisions, not the full current-branch
file set.  (The merge runs the no-conflict path, so the abstract hash
function is never consulted.) -/
theorem c1_merge_drops_unchanged_file :
    (loadCommit mergeDemoState mergeDemoState.head).map
        (fun c => alookup c.file_blobs "a") = some (some "h1") ∧
    ((merge (fun _ => "HX") mergeDemoState "feat" 5 2).bind
        (fun r => r.new_commit)).map
        (fun c => (c.parent_hashes, alookup c.file_blobs "a", alookup c.file_blobs "b"))
      = some (["B", "T"], none, some "h3") ∧
    ((merge (fun _ => "HX") mergeDemoState "feat" 5 2).map
        (fun r => (r.ok, r.report))) = some (true, MergeReport.merged false) := by
  decide

/-- The repository state immediately after `init` followed by `add a.txt`:
initialized, empty object space, empty HEAD, branch `main` with empty commit
hash, one staged blob. -/
def c2StateA : RepoState :=
  { is_init := true, objects := [], head := ""
    branches := [("main", { name := "main", commit_hash := "" })]
    current_branch := "main"
    staging := [("a.txt", { hash := "ha", content := "hello", filename := "a.txt" })] }

/-- The first `commit` run on `c2StateA`. -/
def c2Out1 : CommitOutcome := commit_op c2StateA "first" 0

/-- The state after the first commit with a second file staged. -/
def c2StateB : RepoState :=
  { c2Out1.state with
      staging := [("b.txt", { hash := "hb", content := "world", filename := "b.txt" })] }

/-- The second `commit` run. -/
def c2Out2 : CommitOutcome := commit_op c2StateB "second" 1

/-- C2.  Evaluation showing the claim fails on the code: neither
`Commit::Commit` nor `MiniGit::commit` ever computes a commit hash, so two
successful commits of distinct logical commits (different messages,
timestamps and file tables) both carry the empty hash — the hash is not
derived from the encoded record, and distinct stored commits do not get
distinct non-empty hashes. -/
theorem c2_commit_hash_never_computed :
    c2Out1.ok = true ∧ c2Out2.ok = true ∧
    c2Out1.new_commit.map Commit.hash = some "" ∧
    c2Out2.new_commit.map Commit.hash = some "" ∧
    c2Out1.new_commit.map Commit.message = some "first" ∧
    c2Out2.new_commit.map Commit.message = some "second" := by
  decide

/-- A repository whose HEAD commit `P` holds file `a.txt`, with only
`b.txt` staged. -/
def c3State : RepoState :=
  { is_init := true
    objects := [("P", Obj.commit
      { hash := "P", message := "first", author := "user", timestamp := 0
        parent_hashes := [], file_blobs := [("a.txt", "h1")] })]
    head := "P"
    branches := [("main", { name := "main", commit_hash := "P" })]
    current_branch := "main"
    staging := [("b.txt", { hash := "h2", content := "x", filename := "b.txt" })] }

/-- The `commit` run on `c3State`. -/
def c3Out : CommitOutcome := commit_op c3State "second" 1

/-- C3.  Evaluation showing the claim fails on the code: the parent commit's
file table maps `a.txt`, yet the child commit created by `MiniGit::commit`
records only the staged file `b.txt` — its file table is exactly the staging
area, not the parent's table overridden by the staged files. -/
theorem c3_commit_table_is_staging_only :
    c3Out.ok = true ∧
    c3Out.new_commit.map Commit.parent_hashes = some ["P"] ∧
    c3Out.new_commit.map
        (fun c => (alookup c.file_blobs "a.txt", alookup c.file_blobs "b.txt"))
      = some (none, some "h2") ∧
    (loadCommit c3State "P").map (fun c => alookup c.file_blobs "a.txt")
      = some (some "h1") := by
  decide

/-- A store whose first-parent links form a two-cycle: `a`'s first parent is
`b` and `b`'s first parent is `a`. -/
def cycState : RepoState :=
  { is_init := true
    objects :=
      [("a", Obj.commit { hash := "a", message := "m", author := "user", timestamp := 0
                          parent_hashes := ["b"], file_blobs := [] }),
       ("b", Obj.commit { hash := "b", message := "m", author := "user", timestamp := 0
                          parent_hashes := ["a"], file_blobs := [] })]
    head := "a", branches := [], current_branch := "main", staging := [] }

/-- On the cyclic store the traversal never finishes, whatever the fuel. -/
theorem cyc_ancestors_none (n : Nat) :
    get_commit_ancestors cycState "a" n = none ∧
    get_commit_ancestors cycState "b" n = none := by
  induction n with
  | zero => exact ⟨rfl, rfl⟩
  | succ k ih =>
    constructor
    · show (get_commit_ancestors cycState "b" k).map (fun l => "a" :: l) = none
      rw [ih.2]; rfl
    · show (get_commit_ancestors cycState "a" k).map (fun l => "b" :: l) = none
      rw [ih.1]; rfl

/-- C5, counterexample.  `MiniGit::get_commit_ancestors` carries no cycle
guard (the step bound in `MiniGit::log` is a different function): on the
two-cycle store the `while` loop revisits its state forever, i.e. no amount
of fuel makes the embedded loop finish — contradicting the claim that the
traversal always terminates after a bounded number of steps. -/
theorem c5_counterexample :
    (loadCommit cycState "a").map Commit.parent_hashes = some ["b"] ∧
    (loadCommit cycState "b").map Commit.parent_hashes = some ["a"] ∧
    ¬ ∃ fuel, (get_commit_ancestors cycState "a" fuel).isSome = true := by
  refine ⟨by decide, by decide, ?_⟩
  rintro ⟨n, h⟩
  rw [(cyc_ancestors_none n).1] at h
  simp at h

/-- C5, amended.  The traversal follows the first parent only and stops on
an empty hash, a hash that does not load, or a parentless commit; it has no
cycle guard, but whenever the store's first-parent links admit a decreasing
rank (in particular on every acyclic store) the loop finishes within any
fuel exceeding the rank of the start. -/
theorem c5_ancestors_terminate :
    ∀ (st : RepoState) (rank : String → Nat),
      (∀ h c p ps, loadCommit st h = some c → c.parent_hashes = p :: ps →
        rank p < rank h) →
      ∀ (start : String) (fuel : Nat), rank start < fuel →
        (get_commit_ancestors st start fuel).isSome = true := by
  intro st rank hrank
  have key : ∀ (n : Nat), ∀ (start : String), rank start < n →
      (get_commit_ancestors st start n).isSome = true := by
    intro n
    induction n using Nat.strong_induction_on with
    | _ n ihn =>
      intro start hfuel
      obtain ⟨k, rfl⟩ : ∃ k, n = k + 1 := ⟨n - 1, by omega⟩
      rw [get_commit_ancestors]
      by_cases hh : start = ""
      · simp [hh]
      · rw [if_neg hh]
        cases hc : loadCommit st start with
        | none => rfl
        | some c =>
          show (match c.parent_hashes with
              | [] => some [start]
              | p :: _ =>
                (get_commit_ancestors st p k).map (fun l => start :: l)).isSome = true
          cases hp : c.parent_hashes with
          | nil => rfl
          | cons p ps =>
            have hlt : rank p < rank start := hrank start c p ps hc hp
            have hk : (get_commit_ancestors st p k).isSome = true :=
              ihn k (by omega) p (by omega)
            obtain ⟨l, hl⟩ := Option.isSome_iff_exists.mp hk
            show ((get_commit_ancestors st p k).map (fun l => start :: l)).isSome = true
            rw [hl]
            rfl
  intro start fuel hfuel
  exact key fuel start hfuel

/-- A repository with an empty object space: every non-empty start hash is
absent from the store. -/
def emptyState : RepoState :=
  { is_init := true, objects := [], head := "", branches := [],
    current_branch := "main", staging := [] }

/-- Witness for C5 (amended): on the empty store (constant rank zero — its
parent links are vacuously decreasing) the traversal of an absent hash
finishes within one step. -/
theorem c5_ancestors_terminate_witness :
    (get_commit_ancestors emptyState "x" 1).isSome = true := by
  refine c5_ancestors_terminate emptyState (fun _ => 0) ?_ "x" 1 (by decide)
  intro h c p ps hl _
  exfalso
  by_cases hh : h = "" <;>
    simp [loadCommit, loadCommitFrom, alookup, emptyState, hh] at hl

/-- The traversal never records the empty hash: the loop condition filters
it out before it can be pushed. -/
theorem empty_not_mem_ancestors (st : RepoState) :
    ∀ (fuel : Nat) (h : String) (l : List String),
      get_commit_ancestors st h fuel = some l → "" ∉ l := by
  intro fuel
  induction fuel with
  | zero => intro h l hsome; simp [get_commit_ancestors] at hsome
  | succ k ih =>
    intro h l hsome
    rw [get_commit_ancestors] at hsome
    by_cases hh : h = ""
    · rw [if_pos hh] at hsome
      obtain rfl : ([] : List String) = l := Option.some.inj hsome
      simp
    · rw [if_neg hh] at hsome
      cases hc : loadCommit st h with
      | none =>
        rw [hc] at hsome
        obtain rfl : ([] : List String) = l := Option.some.inj hsome
        simp
      | some c =>
        rw [hc] at hsome
        have hsome' : (match c.parent_hashes with
            | [] => some [h]
            | p :: _ => (get_commit_ancestors st p k).map (fun l => h :: l)) =
              some l := hsome
        split at hsome'
        · obtain rfl : [h] = l := Option.some.inj hsome'
          simp [Ne.symm hh]
        · obtain ⟨l', hl', rfl⟩ := Option.map_eq_some'.mp hsome'
          intro hmem
          rcases List.mem_cons.mp hmem with hcase | hcase
          · exact hh hcase.symm
          · exact ih _ _ hl' hcase

/-- When the start commit loads, the traversal's result starts with the
start hash itself. -/
theorem ancestors_head (st : RepoState) :
    ∀ (fuel : Nat) (x : String) (c : Commit) (lx : List String),
      loadCommit st x = some c →
      get_commit_ancestors st x fuel = some lx → ∃ t, lx = x :: t := by
  intro fuel x c lx hl hsome
  obtain ⟨k, rfl⟩ : ∃ k, fuel = k + 1 := by
    cases fuel with
    | zero => simp [get_commit_ancestors] at hsome
    | succ k => exact ⟨k, rfl⟩
  have hh : x ≠ "" := by
    intro hx
    rw [loadCommit, loadCommitFrom, if_pos hx] at hl
    exact Option.noConfusion hl
  rw [get_commit_ancestors, if_neg hh, hl] at hsome
  have hsome' : (match c.parent_hashes with
      | [] => some [x]
      | p :: _ => (get_commit_ancestors st p k).map (fun l => x :: l)) =
        some lx := hsome
  split at hsome'
  · exact ⟨[], (Option.some.inj hsome').symm⟩
  · obtain ⟨l', _, rfl⟩ := Option.map_eq_some'.mp hsome'
    exact ⟨l', rfl⟩

/-- C6.  Whenever both ancestor traversals finish,
`find_lowest_common_ancestor` returns exactly the first entry of
`ancestors(b)`, scanned in order, that belongs to `ancestors(a)`; it
returns the empty answer precisely when the two first-parent ancestor lists
share no hash; and on a committed `x` the LCA of `x` with itself is `x`. -/
theorem c6_lca_spec :
    (∀ (st : RepoState) (a b : String) (fuel : Nat) (la lb : List String),
        get_commit_ancestors st a fuel = some la →
        get_commit_ancestors st b fuel = some lb →
        find_lowest_common_ancestor st a b fuel =
            some ((lb.find? (fun h => memb h la)).getD "") ∧
          (find_lowest_common_ancestor st a b fuel = some "" ↔
            ∀ h ∈ lb, h ∉ la)) ∧
    (∀ (st : RepoState) (x : String) (c : Commit) (fuel : Nat) (lx : List String),
        loadCommit st x = some c →
        get_commit_ancestors st x fuel = some lx →
        find_lowest_common_ancestor st x x fuel = some x) := by
  constructor
  · intro st a b fuel la lb ha hb
    have hval : find_lowest_common_ancestor st a b fuel =
        some ((lb.find? (fun h => memb h la)).getD "") := by
      rw [find_lowest_common_ancestor, ha, hb]
      cases hf : lb.find? (fun h => memb h la) <;> simp [hf]
    refine ⟨hval, ?_⟩
    rw [hval]
    cases hf : lb.find? (fun h => memb h la) with
    | none =>
      simp only [Option.getD_none]
      constructor
      · intro _ h hmem
        have hnp := List.find?_eq_none.mp hf h hmem
        simpa [memb] using hnp
      · intro _; trivial
    | some x =>
      have hxla := List.find?_some hf
      have hxlb : x ∈ lb := List.mem_of_find?_eq_some hf
      have hxne : x ≠ "" := by
        intro hx
        exact (empty_not_mem_ancestors st fuel b lb hb) (hx ▸ hxlb)
      simp only [Option.getD_some]
      constructor
      · intro hcontra
        exact absurd (Option.some.inj hcontra) hxne
      · intro hall
        exact absurd (by simpa [memb] using hxla) (hall x hxlb)
  · intro st x c fuel lx hl hx
    obtain ⟨t, rfl⟩ := ancestors_head st fuel x c lx hl hx
    rw [find_lowest_common_ancestor, hx]
    have hfind : (x :: t).find? (fun h => memb h (x :: t)) = some x :=
      List.find?_cons_of_pos _ (by simp [memb])
    show some (match (x :: t).find? (fun h => memb h (x :: t)) with
        | some y => y
        | none => "") = some x
    rw [hfind]

/-- Witness for C6 at the demo repository: `LCA(B, T) = B` (the first entry
of `ancestors(T) = [T, B]` present in `ancestors(B) = [B]`) and
`LCA(T, T) = T`. -/
theorem c6_lca_spec_witness :
    find_lowest_common_ancestor mergeDemoState "B" "T" 5 = some "B" ∧
    find_lowest_common_ancestor mergeDemoState "T" "T" 5 = some "T" := by
  constructor
  · have h :=
      (c6_lca_spec.1 mergeDemoState "B" "T" 5 ["B"] ["T", "B"]
        (by decide) (by decide)).1
    rw [h]; decide
  · exact c6_lca_spec.2 mergeDemoState "T" cFeat 5 ["T", "B"] (by decide) (by decide)

/-- Projection of a commit decode onto the parsed parent list (to observe
the parsed object without spelling out every field). -/
def decParents : DecRes Commit → Option (List String)
  | .ok c => some c.parent_hashes
  | _ => none

/-- A commit record whose header declares two parents but whose body
supplies only one parent line. -/
def c4bad1 : List Char :=
  "commit h\nmessage m\nauthor a\ntimestamp 0\nparents 2\nparent p1\nfiles 0\n".data

/-- A commit record whose parent-count field is not numeric. -/
def c4bad2 : List Char :=
  "commit h\nmessage m\nauthor a\ntimestamp 0\nparents xx\n".data

/-- A commit record whose timestamp field is not numeric. -/
def c4bad3 : List Char :=
  "commit h\nmessage m\nauthor a\ntimestamp zz\nparents 0\nfiles 0\n".data

/-- C4, counterexample.  `Commit::from_string` accepts the record declaring
two parents while providing one, returning a partially-populated commit with
a single parent (the parent loop even consumes the `files 0` line, so the
file section is skipped); on a non-numeric `parents` count the `std::stoul`
call raises an exception instead of the `CorruptObject` rejection; and on a
non-numeric `timestamp` value `utils::string_to_timestamp`'s `std::stoll`
raises an exception likewise.  All three refute the claim as stated. -/
theorem c4_counterexample :
    decParents (Commit.from_cs c4bad1) = some ["p1"] ∧
    Commit.from_cs c4bad2 = DecRes.err ∧
    Commit.from_cs c4bad3 = DecRes.err := by
  decide

/-- C4, amended.  Each decoder rejects (returns null — the `CorruptObject`
signal) any input with fewer lines than its header requires, and any input
whose leading record tag is wrong. -/
theorem c4_decode_rejects :
    (∀ data : List Char,
        (splitNl data).length < 5 → Commit.from_cs data = DecRes.reject) ∧
    (∀ (data l0 : List Char) (ls : List (List Char)),
        splitNl data = l0 :: ls → ("commit ".data).isPrefixOf l0 = false →
        Commit.from_cs data = DecRes.reject) ∧
    (∀ data : List Char,
        (splitNl data).length < 4 → Blob.from_cs data = DecRes.reject) ∧
    (∀ (data l0 : List Char) (ls : List (List Char)),
        splitNl data = l0 :: ls → ("blob ".data).isPrefixOf l0 = false →
        Blob.from_cs data = DecRes.reject) ∧
    (∀ data : List Char,
        (splitNl data).length < 2 → Branch.from_cs data = none) ∧
    (∀ (data l0 : List Char) (ls : List (List Char)),
        splitNl data = l0 :: ls → ("branch ".data).isPrefixOf l0 = false →
        Branch.from_cs data = none) := by
  refine ⟨?_, ?_, ?_, ?_, ?_, ?_⟩
  · intro data hlen
    rw [Commit.from_cs]
    rcases hs : splitNl data with _ | ⟨l0, _ | ⟨l1, _ | ⟨l2, _ | ⟨l3, _ | ⟨l4, rest⟩⟩⟩⟩⟩ <;>
      first
        | rfl
        | (rw [hs] at hlen; simp at hlen; omega)
  · intro data l0 ls hs hpre
    rw [Commit.from_cs, hs]
    rcases ls with _ | ⟨l1, _ | ⟨l2, _ | ⟨l3, _ | ⟨l4, rest⟩⟩⟩⟩ <;>
      simp [Commit.from_lines, hpre]
  · intro data hlen
    rw [Blob.from_cs]
    rcases hs : splitNl data with _ | ⟨l0, _ | ⟨l1, _ | ⟨l2, _ | ⟨l3, rest⟩⟩⟩⟩ <;>
      first
        | rfl
        | (rw [hs] at hlen; simp at hlen; omega)
  · intro data l0 ls hs hpre
    rw [Blob.from_cs, hs]
    rcases ls with _ | ⟨l1, _ | ⟨l2, _ | ⟨l3, rest⟩⟩⟩ <;>
      simp [Blob.from_lines, hpre]
  · intro data hlen
    rw [Branch.from_cs]
    rcases hs : splitNl data with _ | ⟨l0, _ | ⟨l1, rest⟩⟩ <;>
      first
        | rfl
        | (rw [hs] at hlen; simp at hlen; omega)
  · intro data l0 ls hs hpre
    rw [Branch.from_cs, hs]
    rcases ls with _ | ⟨l1, rest⟩ <;>
      simp [Branch.from_lines, hpre]

/-- Witness for C4 (amended) at concrete malformed records. -/
theorem c4_decode_rejects_witness :
    Commit.from_cs "xyz".data = DecRes.reject ∧
    Commit.from_cs "xyzzy\na\nb\nc\nd\ne\n".data = DecRes.reject ∧
    Blob.from_cs "zz\nzz\nzz\nzz\n".data = DecRes.reject ∧
    Branch.from_cs "zz\nzz\n".data = none := by
  refine ⟨c4_decode_rejects.1 _ (by decide),
    c4_decode_rejects.2.1 _ "xyzzy".data
      ["a".data, "b".data, "c".data, "d".data, "e".data] (by decide) (by decide),
    c4_decode_rejects.2.2.2.1 _ "zz".data
      ["zz".data, "zz".data, "zz".data] (by decide) (by decide),
    c4_decode_rejects.2.2.2.2.2 _ "zz".data ["zz".data] (by decide) (by decide)⟩

/-! Splitting lemmas for the round-trip analysis of the blob record. -/

/-- A raw split always produces at least one segment. -/
theorem splitRaw_ne_nil (l : List Char) : splitRaw l ≠ [] := by
  cases l with
  | nil => simp [splitRaw]
  | cons c cs =>
    rw [splitRaw]
    cases h : splitRaw cs with
    | nil => simp
    | cons t ts => by_cases hc : c = '\n' <;> simp [hc]

/-- Peeling one newline-free line off the front of a raw split. -/
theorem splitRaw_append (a rest : List Char) (ha : '\n' ∉ a) :
    splitRaw (a ++ '\n' :: rest) = a :: splitRaw rest := by
  induction a with
  | nil =>
    simp only [List.nil_append]
    rw [splitRaw]
    cases h : splitRaw rest with
    | nil => exact absurd h (splitRaw_ne_nil rest)
    | cons t ts => simp
  | cons c a ih =>
    have hc : c ≠ '\n' := fun h => ha (h ▸ List.mem_cons_self c a)
    have ha' : '\n' ∉ a := fun h => ha (List.mem_cons_of_mem _ h)
    show splitRaw (c :: (a ++ '\n' :: rest)) = (c :: a) :: splitRaw rest
    rw [splitRaw, ih ha']
    simp [hc]

/-- A one-segment raw split recovers the input. -/
theorem splitRaw_eq_single (l : List Char) :
    ∀ x, splitRaw l = [x] → l = x := by
  induction l with
  | nil =>
    intro x h
    rw [splitRaw] at h
    exact (List.cons.inj h).1
  | cons c cs ih =>
    intro x h
    rw [splitRaw] at h
    cases hs : splitRaw cs with
    | nil => exact absurd hs (splitRaw_ne_nil cs)
    | cons t ts =>
      rw [hs] at h
      have h' : (if c = '\n' then [] :: t :: ts else (c :: t) :: ts) = [x] := h
      by_cases hc : c = '\n'
      · rw [if_pos hc] at h'
        exact absurd h' (by simp)
      · rw [if_neg hc] at h'
        injection h' with h1 h2
        have hcs : cs = t := ih t (by rw [hs, h2])
        rw [hcs]
        exact h1

/-- Trimming commutes with an initial cons when the tail is non-empty. -/
theorem trimLast_cons (a t : List Char) (ts : List (List Char)) :
    trimLast (a :: t :: ts) = a :: trimLast (t :: ts) := by
  unfold trimLast
  rw [List.getLast?_cons_cons]
  cases hg : (t :: ts).getLast? with
  | none => rfl
  | some y =>
    cases y with
    | nil => exact List.dropLast_cons₂
    | cons z zs => rfl

/-- Peeling one newline-free line off the front of the `getline` split. -/
theorem splitNl_append (a rest : List Char) (ha : '\n' ∉ a) :
    splitNl (a ++ '\n' :: rest) = a :: splitNl rest := by
  unfold splitNl
  rw [splitRaw_append a rest ha]
  cases hs : splitRaw rest with
  | nil => exact absurd hs (splitRaw_ne_nil rest)
  | cons t ts => exact trimLast_cons a t ts

/-- The `getline` split of a non-empty text is non-empty. -/
theorem splitNl_ne_nil (l : List Char) (hl : l ≠ []) : splitNl l ≠ [] := by
  unfold splitNl
  cases hr : splitRaw l with
  | nil => exact absurd hr (splitRaw_ne_nil l)
  | cons x xs =>
    cases xs with
    | cons y ys =>
      rw [trimLast_cons]
      simp
    | nil =>
      unfold trimLast
      rw [List.getLast?_singleton]
      cases hx : x with
      | nil =>
        exfalso
        exact hl (splitRaw_eq_single l [] (by rw [hr, hx]))
      | cons c cs =>
        intro hcontra
        exact absurd hcontra (by simp)

/-- Dropping past the first newline of a line-plus-newline prefix. -/
theorem dropPastNewlines_append (n : Nat) (a rest : List Char) (ha : '\n' ∉ a) :
    dropPastNewlines (n + 1) (a ++ '\n' :: rest) = dropPastNewlines n rest := by
  induction a with
  | nil => simp [dropPastNewlines]
  | cons c a ih =>
    have hc : c ≠ '\n' := fun h => ha (h ▸ List.mem_cons_self c a)
    have ha' : '\n' ∉ a := fun h => ha (List.mem_cons_of_mem _ h)
    show dropPastNewlines (n + 1) (c :: (a ++ '\n' :: rest)) = dropPastNewlines n rest
    rw [dropPastNewlines, if_neg hc]
    exact ih ha'

/-- A list is a prefix (in the boolean sense) of itself followed by
anything. -/
theorem isPrefixOf_append_self (l r : List Char) : l.isPrefixOf (l ++ r) = true := by
  induction l with
  | nil => simp [List.isPrefixOf]
  | cons c cs ih => simp [List.isPrefixOf, ih]

/-- Every digit character is a digit and is neither a newline nor a
space. -/
theorem digitChar_spec (d : Nat) :
    (digitChar d).isDigit = true ∧ digitChar d ≠ '\n' ∧ digitChar d ≠ ' ' := by
  rcases d with _ | _ | _ | _ | _ | _ | _ | _ | _ | d
  · exact ⟨by decide, by decide, by decide⟩
  · exact ⟨by decide, by decide, by decide⟩
  · exact ⟨by decide, by decide, by decide⟩
  · exact ⟨by decide, by decide, by decide⟩
  · exact ⟨by decide, by decide, by decide⟩
  · exact ⟨by decide, by decide, by decide⟩
  · exact ⟨by decide, by decide, by decide⟩
  · exact ⟨by decide, by decide, by decide⟩
  · exact ⟨by decide, by decide, by decide⟩
  · refine ⟨?_, ?_, ?_⟩
    · show ('9' : Char).isDigit = true
      decide
    · show ('9' : Char) ≠ '\n'
      decide
    · show ('9' : Char) ≠ ' '
      decide

/-- With enough fuel, the decimal rendering starts with a digit and never
contains a newline. -/
theorem natDigitsAux_spec :
    ∀ fuel n, n < fuel →
      (∃ c cs, natDigitsAux fuel n = c :: cs ∧ c.isDigit = true) ∧
      '\n' ∉ natDigitsAux fuel n := by
  intro fuel
  induction fuel with
  | zero => intro n h; exact absurd h (Nat.not_lt_zero n)
  | succ k ih =>
    intro n hn
    rw [natDigitsAux]
    by_cases h10 : n < 10
    · rw [if_pos h10]
      refine ⟨⟨digitChar n, [], rfl, (digitChar_spec n).1⟩, ?_⟩
      simp [List.mem_singleton]
      exact ((digitChar_spec n).2.1).symm
    · rw [if_neg h10]
      have hdiv : n / 10 < n := Nat.div_lt_self (by omega) (by omega)
      have hrec := ih (n / 10) (by omega)
      obtain ⟨⟨c, cs, hc, hcd⟩, hnl⟩ := hrec
      constructor
      · exact ⟨c, cs ++ [digitChar (n % 10)], by rw [hc]; rfl, hcd⟩
      · intro hm
        rcases List.mem_append.mp hm with h | h
        · exact hnl h
        · exact ((digitChar_spec (n % 10)).2.1).symm (List.mem_singleton.mp h)

/-- The decimal rendering contains no newline. -/
theorem natDigits_no_newline (n : Nat) : '\n' ∉ natDigits n :=
  (natDigitsAux_spec (n + 1) n (Nat.lt_succ_self n)).2

/-- `std::stoul` succeeds on a decimal rendering. -/
theorem stoulCh_natDigits (n : Nat) : ∃ v, stoulCh (natDigits n) = some v := by
  obtain ⟨c, cs, hc, hcd⟩ := (natDigitsAux_spec (n + 1) n (Nat.lt_succ_self n)).1
  have hcs : c ≠ ' ' := by
    intro heq
    rw [heq] at hcd
    exact absurd hcd (by decide)
  unfold stoulCh
  rw [show natDigits n = c :: cs from hc]
  have hd : List.dropWhile (fun ch => decide (ch = ' ')) (c :: cs) = c :: cs := by
    rw [List.dropWhile_cons, if_neg (by simp [hcs])]
  rw [hd]
  show ∃ v,
    (if List.takeWhile Char.isDigit (c :: cs) = [] then none
     else some (digitsVal (List.takeWhile Char.isDigit (c :: cs)))) = some v
  rw [List.takeWhile_cons, if_pos hcd, if_neg (by simp)]
  exact ⟨digitsVal (c :: List.takeWhile Char.isDigit cs), rfl⟩

/-- Dropping past three newlines of a three-line header. -/
theorem dropPast3 (a b c rest : List Char)
    (ha : '\n' ∉ a) (hb : '\n' ∉ b) (hc : '\n' ∉ c) :
    dropPastNewlines 3 (a ++ '\n' :: (b ++ '\n' :: (c ++ '\n' :: rest))) = rest := by
  calc dropPastNewlines 3 (a ++ '\n' :: (b ++ '\n' :: (c ++ '\n' :: rest)))
      = dropPastNewlines 2 (b ++ '\n' :: (c ++ '\n' :: rest)) :=
        dropPastNewlines_append 2 a _ ha
    _ = dropPastNewlines 1 (c ++ '\n' :: rest) := dropPastNewlines_append 1 b _ hb
    _ = dropPastNewlines 0 rest := dropPastNewlines_append 0 c _ hc
    _ = rest := by simp [dropPastNewlines]

/-- Round trip of the blob record over arbitrary newline-free hash and
filename fields: non-empty content is recovered exactly, empty content makes
the decoder reject. -/
theorem blob_round_trip_core (hs cs fs : String)
    (hh : '\n' ∉ hs.data) (hf : '\n' ∉ fs.data) :
    (cs ≠ "" →
      Blob.from_cs (Blob.to_cs ⟨hs, cs, fs⟩) = DecRes.ok ⟨hs, cs, fs⟩) ∧
    (cs = "" →
      Blob.from_cs (Blob.to_cs ⟨hs, cs, fs⟩) = DecRes.reject) := by
  have hA : '\n' ∉ ("blob ".data ++ hs.data) := by
    intro hm
    rcases List.mem_append.mp hm with h | h
    · exact absurd h (by decide)
    · exact hh h
  have hB : '\n' ∉ ("filename ".data ++ fs.data) := by
    intro hm
    rcases List.mem_append.mp hm with h | h
    · exact absurd h (by decide)
    · exact hf h
  have hC : '\n' ∉ ("content ".data ++ natDigits (String.length cs)) := by
    intro hm
    rcases List.mem_append.mp hm with h | h
    · exact absurd h (by decide)
    · exact natDigits_no_newline _ h
  have hsplit : splitNl (Blob.to_cs ⟨hs, cs, fs⟩) =
      ("blob ".data ++ hs.data) :: ("filename ".data ++ fs.data) ::
      ("content ".data ++ natDigits (String.length cs)) :: splitNl cs.data := by
    calc splitNl (("blob ".data ++ hs.data) ++ '\n' ::
          (("filename ".data ++ fs.data) ++ '\n' ::
          (("content ".data ++ natDigits (String.length cs)) ++ '\n' :: cs.data)))
        = ("blob ".data ++ hs.data) :: splitNl
            (("filename ".data ++ fs.data) ++ '\n' ::
            (("content ".data ++ natDigits (String.length cs)) ++ '\n' :: cs.data)) :=
          splitNl_append _ _ hA
      _ = ("blob ".data ++ hs.data) :: ("filename ".data ++ fs.data) :: splitNl
            (("content ".data ++ natDigits (String.length cs)) ++ '\n' :: cs.data) := by
          rw [splitNl_append _ _ hB]
      _ = ("blob ".data ++ hs.data) :: ("filename ".data ++ fs.data) ::
            ("content ".data ++ natDigits (String.length cs)) :: splitNl cs.data := by
          rw [splitNl_append _ _ hC]
  have hdrop : dropPastNewlines 3 (Blob.to_cs ⟨hs, cs, fs⟩) = cs.data :=
    dropPast3 _ _ _ _ hA hB hC
  constructor
  · intro hne
    have hD : cs.data ≠ [] := by
      intro h
      apply hne
      cases cs with
      | mk d => rw [show d = String.data (String.mk d) from rfl, h]
    obtain ⟨t, ts, hts⟩ : ∃ t ts, splitNl cs.data = t :: ts := by
      cases hsn : splitNl cs.data with
      | nil => exact absurd hsn (splitNl_ne_nil _ hD)
      | cons t ts => exact ⟨t, ts, rfl⟩
    rw [Blob.from_cs, hsplit, hts]
    simp only [Blob.from_lines]
    rw [isPrefixOf_append_self, isPrefixOf_append_self, isPrefixOf_append_self]
    rw [if_neg (show ¬(true = false) by decide)]
    rw [if_neg (show ¬(true = false) by decide)]
    rw [if_neg (show ¬(true = false) by decide)]
    rw [List.drop_left' (show ("content ".data).length = 8 by decide)]
    obtain ⟨v, hv⟩ := stoulCh_natDigits (String.length cs)
    rw [hv, List.drop_left' (show ("blob ".data).length = 5 by decide),
        List.drop_left' (show ("filename ".data).length = 9 by decide), hdrop]
  · intro he
    subst he
    have hz : splitNl ("" : String).data = [] := rfl
    rw [Blob.from_cs, hsplit, hz]
    simp [Blob.from_lines]

/-- No hexadecimal digit character is a newline. -/
theorem hexDigitChar_ne_newline (d : Nat) : hexDigitChar d ≠ '\n' := by
  rcases d with _ | _ | _ | _ | _ | _ | _ | _ | _ | _ | _ | _ | _ | _ | _ | _ | d
  · decide
  · decide
  · decide
  · decide
  · decide
  · decide
  · decide
  · decide
  · decide
  · decide
  · decide
  · decide
  · decide
  · decide
  · decide
  · decide
  · show ('f' : Char) ≠ '\n'
    decide

/-- A hex-encoded digest contains no newline, whatever the digest bytes. -/
theorem hex_encode_no_newline (bytes : List Nat) : '\n' ∉ hex_encode bytes := by
  intro hm
  unfold hex_encode at hm
  obtain ⟨b, _, hmem⟩ := List.mem_flatMap.mp hm
  rcases List.mem_cons.mp hmem with h | h
  · exact hexDigitChar_ne_newline (b / 16) h.symm
  · exact hexDigitChar_ne_newline (b % 16) (List.mem_singleton.mp h).symm

/-- C9, counterexample.  The round trip quantified over every blob fails as
stated: a one-character content with a filename containing a newline makes
`Blob::from_string(b.to_string())` reject instead of succeeding, and an
empty-content blob with filename `f\ncontent 5` makes it succeed — returning
a mangled blob — instead of failing.  (The blobs are built with the
`sha1_hash` model over a concrete digest; the refutation does not depend on
the digest.) -/
theorem c9_counterexample :
    ("x" : String) ≠ "" ∧
    Blob.from_cs (Blob.to_cs (Blob.make (sha1_hash (fun _ => [0])) "x" "a\nb")) =
      DecRes.reject ∧
    Blob.from_cs (Blob.to_cs (Blob.make (sha1_hash (fun _ => [0])) "" "f\ncontent 5")) =
      DecRes.ok { hash := "00", content := "content 0\n", filename := "f" } := by
  decide

/-- C9, amended.  For every blob built by the constructor — whose hash is
`utils::sha1_hash` of the content, a hex-encoded digest and hence
newline-free — with a filename containing no newline: when the content is
non-empty, decoding the encoded record succeeds and recovers the blob
exactly (hash, content and filename, newlines in the content included);
when the content is empty, the encoded record splits into only three lines
and decoding rejects.  `D` is the external SHA1 digest routine. -/
theorem c9_blob_round_trip :
    ∀ (D : String → List Nat) (content filename : String),
      '\n' ∉ filename.data →
      ((content ≠ "" →
          Blob.from_cs (Blob.to_cs (Blob.make (sha1_hash D) content filename)) =
            DecRes.ok (Blob.make (sha1_hash D) content filename)) ∧
       (content = "" →
          Blob.from_cs (Blob.to_cs (Blob.make (sha1_hash D) content filename)) =
            DecRes.reject)) :=
  fun D content filename hf =>
    blob_round_trip_core (sha1_hash D content) content filename
      (hex_encode_no_newline (D content)) hf

/-- Witness for C9 (amended): a two-line content round-trips; an empty
content is rejected.  The digest routine is instantiated concretely. -/
theorem c9_blob_round_trip_witness :
    Blob.from_cs (Blob.to_cs (Blob.make (sha1_hash (fun _ => [171, 5])) "x\ny" "f.txt")) =
      DecRes.ok (Blob.make (sha1_hash (fun _ => [171, 5])) "x\ny" "f.txt") ∧
    Blob.from_cs (Blob.to_cs (Blob.make (sha1_hash (fun _ => [171, 5])) "" "f.txt")) =
      DecRes.reject := by
  refine ⟨(c9_blob_round_trip (fun _ => [171, 5]) "x\ny" "f.txt"
      (by decide)).1 (by decide),
    (c9_blob_round_trip (fun _ => [171, 5]) "" "f.txt"
      (by decide)).2 rfl⟩

end MiniGit
